import Mathlib

/-!
Verification of the Weierstrass-to-Montgomery curve point transformation
program.  The program consists of four functions over arbitrary-precision
signed integers: `extended_gcd` (extended Euclidean algorithm),
`mod_inverse` (modular inverse), `mod_sqrt` (Tonelli-Shanks modular square
root) and `transform_to_montgomery` (the curve transformation).

Embedding conventions:
* Rust `BigInt` becomes `Int`.  Rust `%` and `/` on `BigInt` truncate toward
  zero, so they become `Int.tmod` and `Int.tdiv`.  `Integer::mod_floor` and
  `BigInt::modpow` return the representative in `[0, p)` for a positive
  modulus, which is Lean's `%` (`Int.emod`).
* The Rust loops with no structural bound (the quadratic non-residue search
  and the two Tonelli-Shanks loops) receive an explicit fuel argument; fuel
  sufficiency under the documented preconditions is proved below, so the
  fuel-exhaustion branches are never taken there.
* `transform_to_montgomery` samples a random root `z0` of the curve cubic
  from `[0, p)`; the random source is external to the program, so `z0` is a
  parameter of the embedding and the sampling loop's exit condition is a
  hypothesis of the theorems.
-/

/-- Modular exponentiation as provided by the big-integer library: the value
of `b ^ e` reduced modulo `p`, with the nonnegative representative for a
positive modulus (the behaviour of `BigInt::modpow`). -/
def modpow (b : Int) (e : Nat) (p : Int) : Int := (b ^ e) % p

/-- Extended Euclidean algorithm from the source: returns `(gcd, x, y)` with
`gcd = a * x + b * y`.  The recursion follows the Rust code
`extended_gcd(b, a % b)` with truncating `%` and `/`. -/
def extended_gcd (a b : Int) : Int × Int × Int :=
  if h : b = 0 then (a, 1, 0)
  else
    let r := extended_gcd b (a.tmod b)
    (r.1, r.2.2, r.2.1 - (a.tdiv b) * r.2.2)
termination_by b.natAbs
decreasing_by
  have habs : (a.tmod b).natAbs = a.natAbs % b.natAbs := by
    cases a <;> cases b <;>
      simp only [Int.tmod, Int.natAbs_neg, Int.natAbs_ofNat, Int.natAbs_negSucc] <;> rfl
  have hb : 0 < b.natAbs := Int.natAbs_pos.mpr h
  calc (a.tmod b).natAbs = a.natAbs % b.natAbs := habs
    _ < b.natAbs := Nat.mod_lt _ hb

/-- Fuel-indexed variant of `extended_gcd`.  It performs the identical
recursion but consumes one unit of fuel per recursive call, so
`egcdF fuel a b = some (extended_gcd a b)` exactly when the recursion depth
of the source algorithm on `(a, b)` is below `fuel`. -/
def egcdF : Nat → Int → Int → Option (Int × Int × Int)
  | 0, _, _ => none
  | fuel + 1, a, b =>
    if b = 0 then some (a, 1, 0)
    else
      match egcdF fuel b (a.tmod b) with
      | none => none
      | some r => some (r.1, r.2.2, r.2.1 - (a.tdiv b) * r.2.2)

/-- Modular inverse from the source: run `extended_gcd value modulus`, fail
unless the returned gcd is exactly `1`, otherwise renormalize the Bezout
coefficient with `(x % m + m) % m` (truncating `%`). -/
def mod_inverse (value modulus : Int) : Option Int :=
  let r := extended_gcd value modulus
  if r.1 ≠ 1 then none
  else some (((r.2.1.tmod modulus) + modulus).tmod modulus)

/-- Factorization `n = q * 2 ^ s` with `q` odd: the source loop
`while q.is_even() { q /= 2; s += 1 }`, with explicit fuel (each pass halves
`q`, so fuel `n` is enough whenever `n > 0`, proved below). -/
def factorTwo : Nat → Nat → Nat × Nat
  | 0, q => (q, 0)
  | fuel + 1, q =>
    if q % 2 = 0 then
      let r := factorTwo fuel (q / 2)
      (r.1, r.2 + 1)
    else (q, 0)

/-- Quadratic non-residue search from the source: the first `n` starting at
the given value with `n ^ ((p-1)/2) ≡ p - 1 (mod p)`.  The Rust iterator is
unbounded; for an odd prime `p` a witness exists below `p` (proved below),
so the fuel `p.toNat` used by `mod_sqrt` suffices. -/
def findNonresidue (p : Int) : Nat → Int → Option Int
  | 0, _ => none
  | fuel + 1, n =>
    if modpow n (((p - 1).tdiv 2).toNat) p = p - 1 then some n
    else findNonresidue p fuel (n + 1)

/-- Inner loop of the Tonelli-Shanks main loop: starting from `t2i` with
counter `i`, repeatedly square modulo `p`; exit with the counter once the
value reaches `1`, or fail (the defensive branch of the source) once the
counter reaches `m`.  Since the counter check stops the loop at `m`, fuel
`m + 1` covers every iteration the source can perform when `m ≥ 1`. -/
def tsInner (p : Int) (m : Nat) : Nat → Int → Nat → Option Nat
  | 0, _, _ => none
  | fuel + 1, t2i, i =>
    if t2i = 1 then some i
    else if i + 1 = m then none
    else tsInner p m fuel (modpow t2i 2 p) (i + 1)

/-- One state update of the Tonelli-Shanks main loop, given the index `i`
found by the inner loop, as in the source: then `m ← i`, `c ← b² mod p`,
`t ← t·c mod p`, `r ← r·b mod p` (using the updated `c`, and truncating `%`
on the products as in Rust).  The multiplier is
`c.modpow(&BigInt::from(1u32 << (m - i - 1)), p)`: the shift happens in a
32-bit `u32`, so for a shift amount of 32 or more the program panics when
overflow checks are on, and with checks off the shift amount is reduced
modulo the bit width; the embedding models that wrapped value semantics,
`2 ^ ((m - i - 1) % 32)`, not an exact `2 ^ (m - i - 1)`. -/
def tsStep (p : Int) (m : Nat) (c t r : Int) (i : Nat) : Nat × Int × Int × Int :=
  let b := modpow c (2 ^ ((m - i - 1) % 32)) p
  let c2 := modpow b 2 p
  (i, c2, (t * c2).tmod p, (r * b).tmod p)

/-- Main Tonelli-Shanks loop from the source, one fuel unit per iteration.
The state component `m` strictly decreases at every iteration, so the fuel
`s + 1` supplied by `mod_sqrt` is always enough (proved below). -/
def tsLoop (p : Int) : Nat → Nat → Int → Int → Int → Option Int
  | 0, _, _, _, _ => none
  | fuel + 1, m, c, t, r =>
    if t = 1 then some r
    else
      match tsInner p m (m + 1) t 0 with
      | none => none
      | some i =>
        let st := tsStep p m c t r i
        tsLoop p fuel st.1 st.2.1 st.2.2.1 st.2.2.2

/-- Tonelli-Shanks modular square root from the source.  Early returns: `0`
for the input `0`, the input itself for `p = 2`, failure when Euler's
criterion `value^((p-1)/2) ≡ 1 (mod p)` does not hold.  Otherwise factor
`p - 1 = q * 2^s`, find a non-residue `z`, initialize
`m = s, c = z^q, t = value^q, r = value^((q+1)/2)` and run the main loop. -/
def mod_sqrt (value p : Int) : Option Int :=
  if value = 0 then some 0
  else if p = 2 then some value
  else if modpow value (((p - 1).tdiv 2).toNat) p ≠ 1 then none
  else
    let qs := factorTwo (p - 1).toNat (p - 1).toNat
    match findNonresidue p p.toNat 2 with
    | none => none
    | some z =>
      tsLoop p (qs.2 + 1) qs.2 (modpow z qs.1 p) (modpow value qs.1 p)
        (modpow value ((qs.1 + 1) / 2) p)

/-- Weierstrass-to-Montgomery transformation from the source.  The selected
root `z0` of the curve cubic is a parameter (the Rust code draws it from the
external random source until `(z0³ + a·z0 + b).mod_floor(p) = 0`).  On
success the returned tuple is, in source order,
`(x_montgomery, y_montgomery, a_montgomery, b_montgomery)`. -/
def transform_to_montgomery (x y a b p z0 : Int) : Option (Int × Int × Int × Int) :=
  match mod_sqrt ((3 * z0 * z0 + a) % p) p with
  | none => none
  | some s =>
    match mod_inverse s p with
    | none => none
    | some s_inv =>
      some ((s_inv * (x - z0)) % p, (s_inv * y) % p,
        (3 * z0 * s_inv) % p, s_inv % p)

/-- Binary modular exponentiation over `Nat`, used only as verification
infrastructure: it lets the kernel evaluate `b ^ e mod n` for the large
exponents appearing in the Lucas primality certificate below (`modpow`
itself, a faithful model of the library call, is not kernel-evaluable at
such exponents).  `powModF fuel b e n = b ^ e % n` whenever `e < 2 ^ fuel`,
proved below. -/
def powModF : Nat → Nat → Nat → Nat → Nat
  | 0, _, _, n => 1 % n
  | fuel + 1, b, e, n =>
    if e = 0 then 1 % n
    else
      let r := powModF fuel (b * b % n) (e / 2) n
      if e % 2 = 1 then r * b % n else r

example : mod_sqrt 13 17 = some 8 := rfl
example : mod_sqrt 3 7 = none := rfl
example : mod_sqrt 4 7 = some 2 := rfl
example : egcdF 47 240 46 = some (2, -9, 47) := rfl

/-! ### Arithmetic helper lemmas -/

theorem natAbs_tmod (a b : Int) : (a.tmod b).natAbs = a.natAbs % b.natAbs := by
  cases a <;> cases b <;>
    simp only [Int.tmod, Int.natAbs_neg, Int.natAbs_ofNat, Int.natAbs_negSucc] <;> rfl

theorem natAbs_tmod_lt (a : Int) {b : Int} (hb : b ≠ 0) :
    (a.tmod b).natAbs < b.natAbs :=
  natAbs_tmod a b ▸ Nat.mod_lt _ (Int.natAbs_pos.mpr hb)

theorem tmod_modEq (a n : Int) : a.tmod n ≡ a [ZMOD n] := by
  refine Int.modEq_iff_dvd.mpr ?_
  exact ⟨a.tdiv n, by rw [Int.tmod_def]; ring⟩

theorem emod_modEq_self (a n : Int) : a % n ≡ a [ZMOD n] := by
  unfold Int.ModEq
  exact Int.emod_emod_of_dvd a dvd_rfl

theorem intCast_emod_self (a : Int) (P : Nat) :
    (((a % (P : Int)) : Int) : ZMod P) = (a : ZMod P) :=
  (ZMod.intCast_eq_intCast_iff _ _ _).mpr (emod_modEq_self a P)

theorem intCast_tmod_self (a : Int) (P : Nat) :
    (((a.tmod (P : Int)) : Int) : ZMod P) = (a : ZMod P) :=
  (ZMod.intCast_eq_intCast_iff _ _ _).mpr (tmod_modEq a P)

theorem modpow_cast (b : Int) (e : Nat) (P : Nat) :
    ((modpow b e (P : Int) : Int) : ZMod P) = (b : ZMod P) ^ e := by
  unfold modpow
  rw [intCast_emod_self]
  push_cast
  rfl

theorem modpow_nonneg (b : Int) (e : Nat) {p : Int} (hp : 0 < p) :
    0 ≤ modpow b e p := Int.emod_nonneg _ (ne_of_gt hp)

theorem modpow_lt (b : Int) (e : Nat) {p : Int} (hp : 0 < p) :
    modpow b e p < p := Int.emod_lt_of_pos _ hp

theorem intCast_inj_of_range {P : Nat} {x y : Int}
    (hx0 : 0 ≤ x) (hx1 : x < (P : Int)) (hy0 : 0 ≤ y) (hy1 : y < (P : Int)) :
    ((x : ZMod P) = (y : ZMod P)) ↔ x = y := by
  constructor
  · intro h
    have h2 : x % (P : Int) = y % (P : Int) := (ZMod.intCast_eq_intCast_iff _ _ _).mp h
    rwa [Int.emod_eq_of_lt hx0 hx1, Int.emod_eq_of_lt hy0 hy1] at h2
  · intro h; rw [h]

/-! ### Extended Euclidean algorithm lemmas -/

theorem egcd_bezout (a b : Int) :
    a * (extended_gcd a b).2.1 + b * (extended_gcd a b).2.2 = (extended_gcd a b).1 := by
  induction a, b using extended_gcd.induct with
  | case1 a =>
    rw [extended_gcd]
    simp
  | case2 a b hb ih =>
    rw [extended_gcd]
    simp only [hb, dite_false]
    linear_combination ih - (extended_gcd b (a.tmod b)).2.2 * (Int.tmod_add_tdiv a b)

theorem egcd_dvd (a b : Int) :
    (extended_gcd a b).1 ∣ a ∧ (extended_gcd a b).1 ∣ b := by
  induction a, b using extended_gcd.induct with
  | case1 a => rw [extended_gcd]; simp
  | case2 a b hb ih =>
    rw [extended_gcd]
    simp only [hb, dite_false]
    refine ⟨?_, ih.1⟩
    have h : (extended_gcd b (a.tmod b)).1 ∣ a.tmod b + b * a.tdiv b :=
      dvd_add ih.2 (Dvd.dvd.mul_right ih.1 _)
    rwa [Int.tmod_add_tdiv] at h

theorem egcd_fst_nonneg (a b : Int) (ha : 0 ≤ a) (hb : 0 ≤ b) :
    0 ≤ (extended_gcd a b).1 := by
  induction a, b using extended_gcd.induct with
  | case1 a => rw [extended_gcd]; simpa using ha
  | case2 a b hbne ih =>
    rw [extended_gcd]
    simp only [hbne, dite_false]
    exact ih hb (Int.tmod_nonneg b ha)

theorem gcd_tmod (a b : Int) : Int.gcd b (a.tmod b) = Int.gcd a b := by
  apply Nat.dvd_antisymm
  · have h1 : ((Int.gcd b (a.tmod b) : Int)) ∣ a.tmod b + b * a.tdiv b :=
      dvd_add Int.gcd_dvd_right (Dvd.dvd.mul_right Int.gcd_dvd_left _)
    rw [Int.tmod_add_tdiv] at h1
    exact Int.natCast_dvd_natCast.mp (Int.dvd_gcd h1 Int.gcd_dvd_left)
  · have h1 : ((Int.gcd a b : Int)) ∣ a.tmod b := by
      rw [Int.tmod_def]
      exact dvd_sub Int.gcd_dvd_left (Dvd.dvd.mul_right Int.gcd_dvd_right _)
    exact Int.natCast_dvd_natCast.mp (Int.dvd_gcd Int.gcd_dvd_right h1)

theorem egcd_natAbs (a b : Int) : ((extended_gcd a b).1).natAbs = Int.gcd a b := by
  induction a, b using extended_gcd.induct with
  | case1 a => rw [extended_gcd]; simp [Int.gcd]
  | case2 a b hb ih =>
    rw [extended_gcd]
    simp only [hb, dite_false]
    rw [ih, gcd_tmod a b]

theorem egcd_fst_eq_gcd (a b : Int) (ha : 0 ≤ a) (hb : 0 ≤ b) :
    (extended_gcd a b).1 = (Int.gcd a b : Int) := by
  have h1 := egcd_fst_nonneg a b ha hb
  have h2 := egcd_natAbs a b
  omega

theorem egcdF_complete : ∀ (fuel : Nat) (a b : Int), b.natAbs < fuel →
    egcdF fuel a b = some (extended_gcd a b) := by
  intro fuel
  induction fuel with
  | zero => intro a b h; omega
  | succ f ih =>
    intro a b h
    rw [egcdF, extended_gcd]
    by_cases hb : b = 0
    · simp [hb]
    · have hlt : (a.tmod b).natAbs < f := by
        have h1 := natAbs_tmod_lt a hb
        have h2 : 0 < b.natAbs := Int.natAbs_pos.mpr hb
        omega
      simp [hb, ih b (a.tmod b) hlt]

/-! ### Modular inverse lemmas -/

theorem mod_inverse_sound {v m r : Int} (h : mod_inverse v m = some r) :
    v * r ≡ 1 [ZMOD m] := by
  unfold mod_inverse at h
  by_cases hg : (extended_gcd v m).1 ≠ 1
  · simp [hg] at h
  · push_neg at hg
    simp only [hg] at h
    simp at h
    have hb := egcd_bezout v m
    rw [hg] at hb
    have hr : r ≡ (extended_gcd v m).2.1 [ZMOD m] := by
      rw [← h]
      calc (((extended_gcd v m).2.1.tmod m) + m).tmod m
          ≡ ((extended_gcd v m).2.1.tmod m) + m [ZMOD m] := tmod_modEq _ m
        _ ≡ (extended_gcd v m).2.1 + m [ZMOD m] := (tmod_modEq _ m).add_right m
        _ ≡ (extended_gcd v m).2.1 + 0 [ZMOD m] := by
            exact (Int.ModEq.refl _).add (Int.modEq_zero_iff_dvd.mpr dvd_rfl).symm |>.symm
              |>.trans (Int.ModEq.refl _)
        _ = (extended_gcd v m).2.1 := by ring
    calc v * r ≡ v * (extended_gcd v m).2.1 [ZMOD m] := hr.mul_left v
      _ ≡ v * (extended_gcd v m).2.1 + m * (extended_gcd v m).2.2 [ZMOD m] := by
          exact (Int.modEq_add_fac_self).symm
      _ = 1 := hb

theorem mod_inverse_range {v m r : Int} (hm : 0 < m)
    (h : mod_inverse v m = some r) : 0 ≤ r ∧ r < m := by
  unfold mod_inverse at h
  by_cases hg : (extended_gcd v m).1 ≠ 1
  · simp [hg] at h
  · push_neg at hg
    simp only [hg] at h
    simp at h
    have h1 : 0 ≤ ((extended_gcd v m).2.1.tmod m) + m := by
      have := natAbs_tmod_lt (extended_gcd v m).2.1 (ne_of_gt hm)
      omega
    have h2 : 0 ≤ (((extended_gcd v m).2.1.tmod m) + m).tmod m :=
      Int.tmod_nonneg _ h1
    have h3 : (((extended_gcd v m).2.1.tmod m) + m).tmod m < m :=
      Int.tmod_lt_of_pos _ hm
    omega

theorem mod_inverse_none_iff {v m : Int} (hv : 0 ≤ v) (hm : 0 < m) :
    mod_inverse v m = none ↔ Int.gcd v m ≠ 1 := by
  unfold mod_inverse
  have hfst := egcd_fst_eq_gcd v m hv (le_of_lt hm)
  by_cases hg : Int.gcd v m = 1
  · simp [hfst, hg]
  · have hgz : ((Int.gcd v m : Int)) ≠ 1 := by exact_mod_cast hg
    simp [hfst, hgz, hg]

theorem mod_inverse_isSome {v m : Int} (hv : 0 ≤ v) (hm : 0 < m)
    (hg : Int.gcd v m = 1) : ∃ r, mod_inverse v m = some r := by
  cases h : mod_inverse v m with
  | none => exact absurd hg ((mod_inverse_none_iff hv hm).mp h)
  | some r => exact ⟨r, rfl⟩

/-! ### Factorization of powers of two -/

theorem factorTwo_spec : ∀ (n fuel : Nat), 1 ≤ n → n ≤ fuel →
    n = (factorTwo fuel n).1 * 2 ^ (factorTwo fuel n).2 ∧
      (factorTwo fuel n).1 % 2 = 1 := by
  intro n
  induction n using Nat.strong_induction_on with
  | _ n ih =>
    intro fuel h1 h2
    cases fuel with
    | zero => omega
    | succ f =>
      rw [factorTwo]
      by_cases he : n % 2 = 0
      · simp only [he, if_true]
        have hrec := ih (n / 2) (by omega) f (by omega) (by omega)
        refine ⟨?_, hrec.2⟩
        calc n = 2 * (n / 2) := by omega
          _ = 2 * ((factorTwo f (n / 2)).1 * 2 ^ (factorTwo f (n / 2)).2) := by
              rw [← hrec.1]
          _ = (factorTwo f (n / 2)).1 * 2 ^ ((factorTwo f (n / 2)).2 + 1) := by ring
      · simp only [he, if_false]
        exact ⟨by simp, by omega⟩

/-! ### Soundness of the Tonelli-Shanks loop: whatever it returns squares to
the input modulo p, independently of primality. -/

theorem tsLoop_sound {p w : Int} : ∀ (fuel m : Nat) (c t r res : Int),
    r ^ 2 ≡ t * w [ZMOD p] → tsLoop p fuel m c t r = some res →
    res ^ 2 ≡ w [ZMOD p] := by
  intro fuel
  induction fuel with
  | zero => intro m c t r res _ h; simp [tsLoop] at h
  | succ f ih =>
    intro m c t r res hinv h
    rw [tsLoop] at h
    by_cases ht : t = 1
    · simp only [ht, if_true, Option.some.injEq] at h
      subst h
      calc r ^ 2 ≡ t * w [ZMOD p] := hinv
        _ = w := by rw [ht]; ring
    · simp only [ht, ite_false] at h
      cases hti : tsInner p m (m + 1) t 0 with
      | none => rw [hti] at h; simp at h
      | some i =>
        rw [hti] at h
        simp only [tsStep] at h
        refine ih _ _ _ _ _ ?_ h
        set b := modpow c (2 ^ ((m - i - 1) % 32)) p with hbdef
        have hc2 : modpow b 2 p ≡ b ^ 2 [ZMOD p] := emod_modEq_self _ p
        calc ((r * b).tmod p) ^ 2
            ≡ (r * b) ^ 2 [ZMOD p] := (tmod_modEq _ p).pow 2
          _ = r ^ 2 * b ^ 2 := by ring
          _ ≡ (t * w) * b ^ 2 [ZMOD p] := hinv.mul_right _
          _ = (t * b ^ 2) * w := by ring
          _ ≡ (t * modpow b 2 p) * w [ZMOD p] := ((hc2.mul_left t).symm).mul_right w
          _ ≡ ((t * modpow b 2 p).tmod p) * w [ZMOD p] :=
              ((tmod_modEq _ p).symm).mul_right w

theorem mod_sqrt_sound {w p s : Int} (hp : 3 ≤ p) (h : mod_sqrt w p = some s) :
    s ^ 2 ≡ w [ZMOD p] := by
  unfold mod_sqrt at h
  by_cases hw : w = 0
  · simp only [hw, if_true, Option.some.injEq] at h
    subst h
    simp [hw, Int.ModEq.refl]
  · have hp2 : p ≠ 2 := by omega
    by_cases hE : modpow w (((p - 1).tdiv 2).toNat) p = 1
    · simp only [hw, hp2, hE, ne_eq, not_true_eq_false, if_false, ite_false] at h
      cases hz : findNonresidue p p.toNat 2 with
      | none => rw [hz] at h; simp at h
      | some z =>
        rw [hz] at h
        have hn1 : 1 ≤ (p - 1).toNat := by omega
        have hq := factorTwo_spec (p - 1).toNat (p - 1).toNat hn1 le_rfl
        set q := (factorTwo (p - 1).toNat (p - 1).toNat).1 with hqdef
        refine tsLoop_sound _ _ _ _ _ _ ?_ h
        have h2q : 2 * ((q + 1) / 2) = q + 1 := by omega
        calc (modpow w ((q + 1) / 2) p) ^ 2
            ≡ (w ^ ((q + 1) / 2)) ^ 2 [ZMOD p] := (emod_modEq_self _ p).pow 2
          _ = w ^ (2 * ((q + 1) / 2)) := by rw [← pow_mul, Nat.mul_comm]
          _ = w ^ (q + 1) := by rw [h2q]
          _ = w ^ q * w := by rw [pow_succ]
          _ ≡ (modpow w q p) * w [ZMOD p] := ((emod_modEq_self _ p).symm).mul_right w
    · simp [hw, hp2, hE] at h

/-! ### Unfolding a successful transformation -/

theorem transform_eq {x y a b p z0 u v A B : Int}
    (h : transform_to_montgomery x y a b p z0 = some (u, v, A, B)) :
    ∃ s si, mod_sqrt ((3 * z0 * z0 + a) % p) p = some s ∧
      mod_inverse s p = some si ∧
      u = (si * (x - z0)) % p ∧ v = (si * y) % p ∧
      A = (3 * z0 * si) % p ∧ B = si % p := by
  unfold transform_to_montgomery at h
  split at h
  · simp at h
  · next s hs =>
    split at h
    · simp at h
    · next si hsi =>
      simp only [Option.some.injEq, Prod.mk.injEq] at h
      exact ⟨s, si, hs, hsi, h.1.symm, h.2.1.symm, h.2.2.1.symm, h.2.2.2.symm⟩

theorem transform_unfold (x y a b p z0 s si : Int)
    (hs : mod_sqrt ((3 * z0 * z0 + a) % p) p = some s)
    (hsi : mod_inverse s p = some si) :
    transform_to_montgomery x y a b p z0 =
      some ((si * (x - z0)) % p, (si * y) % p, (3 * z0 * si) % p, si % p) := by
  unfold transform_to_montgomery
  rw [hs]
  dsimp only
  rw [hsi]

theorem egcd_eval_8_17 : extended_gcd 8 17 = (1, -2, 1) := by
  have h := egcdF_complete 18 8 17 (by norm_num)
  rw [show egcdF 18 8 17 = some (1, -2, 1) from rfl] at h
  exact (Option.some.inj h).symm

theorem mod_inverse_eval_8_17 : mod_inverse 8 17 = some 15 := by
  unfold mod_inverse
  rw [egcd_eval_8_17]
  decide

theorem transform_eval_17 : transform_to_montgomery 14 6 8 2 17 8 = some (5, 5, 3, 15) :=
  (transform_unfold 14 6 8 2 17 8 8 15 rfl mod_inverse_eval_8_17).trans (by decide)

/-! ### Claim C1 -/

/-- C1: for every odd prime p, Weierstrass coefficients a, b and point (x, y)
on the curve modulo p, whenever `transform_to_montgomery` returns
successfully for a sampled root z0 of the cubic, the returned data
(u, v, A, B) satisfies the Montgomery curve equation
B·v² ≡ u³ + A·u² + u (mod p). -/
theorem montgomery_equation_on_success (P : Nat) (hP : Nat.Prime P)
    (hodd : 2 < P) (x y a b z0 u v A B : Int)
    (hz0lo : 0 ≤ z0) (hz0hi : z0 < (P : Int))
    (hroot : (z0 ^ 3 + a * z0 + b) % (P : Int) = 0)
    (hcurve : y ^ 2 ≡ x ^ 3 + a * x + b [ZMOD (P : Int)])
    (h : transform_to_montgomery x y a b (P : Int) z0 = some (u, v, A, B)) :
    B * v ^ 2 ≡ u ^ 3 + A * u ^ 2 + u [ZMOD (P : Int)] := by
  obtain ⟨s, si, hs, hsi, hu, hv, hA, hB⟩ := transform_eq h
  have hp3 : (3 : Int) ≤ (P : Int) := by exact_mod_cast hodd
  have hsound := mod_sqrt_sound hp3 hs
  have hinv := mod_inverse_sound hsi
  have hS : (s : ZMod P) ^ 2 = 3 * (z0 : ZMod P) * (z0 : ZMod P) + (a : ZMod P) := by
    have h1 : ((s ^ 2 : Int) : ZMod P) = (((3 * z0 * z0 + a) % (P : Int) : Int) : ZMod P) :=
      (ZMod.intCast_eq_intCast_iff _ _ _).mpr hsound
    rw [intCast_emod_self] at h1
    push_cast at h1
    exact h1
  have hI : (s : ZMod P) * (si : ZMod P) = 1 := by
    have h1 : ((s * si : Int) : ZMod P) = ((1 : Int) : ZMod P) :=
      (ZMod.intCast_eq_intCast_iff _ _ _).mpr hinv
    push_cast at h1
    exact h1
  have hC : (y : ZMod P) ^ 2 = (x : ZMod P) ^ 3 + (a : ZMod P) * (x : ZMod P) + (b : ZMod P) := by
    have h1 : ((y ^ 2 : Int) : ZMod P) = ((x ^ 3 + a * x + b : Int) : ZMod P) :=
      (ZMod.intCast_eq_intCast_iff _ _ _).mpr hcurve
    push_cast at h1
    exact h1
  have hR : (z0 : ZMod P) ^ 3 + (a : ZMod P) * (z0 : ZMod P) + (b : ZMod P) = 0 := by
    have h1 := congrArg (fun w : Int => (w : ZMod P)) hroot
    simp only [intCast_emod_self] at h1
    push_cast at h1
    exact h1
  have hU : (u : ZMod P) = (si : ZMod P) * ((x : ZMod P) - (z0 : ZMod P)) := by
    rw [hu, intCast_emod_self]; push_cast; ring
  have hV : (v : ZMod P) = (si : ZMod P) * (y : ZMod P) := by
    rw [hv, intCast_emod_self]; push_cast; ring
  have hA2 : (A : ZMod P) = 3 * (z0 : ZMod P) * (si : ZMod P) := by
    rw [hA, intCast_emod_self]; push_cast; ring
  have hB2 : (B : ZMod P) = (si : ZMod P) := by
    rw [hB, intCast_emod_self]
  refine (ZMod.intCast_eq_intCast_iff _ _ _).mp ?_
  push_cast
  rw [hU, hV, hA2, hB2]
  linear_combination ((si : ZMod P) ^ 3) * hC + ((si : ZMod P) ^ 3) * hR +
    ((si : ZMod P) * ((x : ZMod P) - (z0 : ZMod P)) * ((s : ZMod P) * (si : ZMod P) + 1)) * hI -
    ((si : ZMod P) ^ 3 * ((x : ZMod P) - (z0 : ZMod P))) * hS

/-- Witness for C1 at the example of the program: p = 17, curve (a, b) = (8, 2),
point (14, 6), sampled root z0 = 8, output (u, v, A, B) = (5, 5, 3, 15). -/
theorem montgomery_equation_on_success_witness :
    (15 : Int) * 5 ^ 2 ≡ 5 ^ 3 + 3 * 5 ^ 2 + 5 [ZMOD ((17 : Nat) : Int)] :=
  montgomery_equation_on_success 17 (by norm_num) (by norm_num) 14 6 8 2 8 5 5 3 15
    (by norm_num) (by norm_num) (by decide) (by decide) transform_eval_17

/-! ### Claim C2 -/

theorem egcd_eval_neg1_3 : extended_gcd (-1) 3 = (-1, 1, 0) := by
  have h := egcdF_complete 4 (-1) 3 (by norm_num)
  rw [show egcdF 4 (-1) 3 = some (-1, 1, 0) from rfl] at h
  exact (Option.some.inj h).symm

/-- C2 counterexample: at p = 17, curve (8, 2), point (14, 6), root z0 = 8,
the square root is s = 8 with s⁻¹ = 15, so A = 3·z0·s⁻¹ mod p = 3; yet the
first component of the returned tuple is 5 (the mapped coordinate u), not A.
The function therefore does not return the order (A, B, u, v). -/
theorem transform_output_order_counterexample :
    transform_to_montgomery 14 6 8 2 17 8 = some (5, 5, 3, 15) ∧
    mod_sqrt ((3 * 8 * 8 + 8 : Int) % 17) 17 = some 8 ∧
    mod_inverse 8 17 = some 15 ∧
    (3 * 8 * 15 : Int) % 17 = 3 ∧ (5 : Int) ≠ 3 :=
  ⟨transform_eval_17, rfl, mod_inverse_eval_8_17, by decide, by decide⟩

/-- C2 (amended): on success, `transform_to_montgomery` returns the four
arbitrary-precision integers in the order (u, v, A, B) — the mapped point
first and the Montgomery coefficients last — where
u = s⁻¹·(x − z0) mod p, v = s⁻¹·y mod p, A = 3·z0·s⁻¹ mod p, B = s⁻¹ mod p
for the selected root z0, the computed square root s and its inverse s⁻¹. -/
theorem transform_output_tuple (x y a b p z0 s si : Int)
    (hs : mod_sqrt ((3 * z0 * z0 + a) % p) p = some s)
    (hsi : mod_inverse s p = some si) :
    transform_to_montgomery x y a b p z0 =
      some ((si * (x - z0)) % p, (si * y) % p, (3 * z0 * si) % p, si % p) :=
  transform_unfold x y a b p z0 s si hs hsi

/-- Witness for the amended C2 at the example of the program. -/
theorem transform_output_tuple_witness :
    transform_to_montgomery 14 6 8 2 17 8 =
      some ((15 * (14 - 8)) % 17, (15 * 6) % 17, (3 * 8 * 15) % 17, 15 % 17) :=
  transform_output_tuple 14 6 8 2 17 8 8 15 rfl mod_inverse_eval_8_17

/-! ### Claim C4 -/

/-- C4 counterexample: 5 is congruent to 0 modulo the prime 5, but
`mod_sqrt 5 5` returns `none` rather than `some 0`: the zero test of the
source compares the input integer with literal 0, not its residue. -/
theorem mod_sqrt_multiple_of_p_counterexample :
    mod_sqrt 5 5 = none ∧ (5 : Int) % 5 = 0 ∧ Nat.Prime 5 :=
  ⟨rfl, by decide, by norm_num⟩

/-- C4 (amended): when the input integer is literally 0, `mod_sqrt` returns
`some 0` for every modulus, and for p = 2 it returns the input unchanged. -/
theorem mod_sqrt_zero_and_char_two :
    (∀ p : Int, mod_sqrt 0 p = some 0) ∧ (∀ v : Int, mod_sqrt v 2 = some v) := by
  constructor
  · intro p; unfold mod_sqrt; simp
  · intro v
    unfold mod_sqrt
    by_cases hv : v = 0
    · simp [hv]
    · simp [hv]

/-! ### Claim C5 -/

/-- C5 counterexample: gcd(−1, 3) = 1, so the claim requires a successful
inverse, but `mod_inverse (-1) 3` fails: `extended_gcd (-1) 3` returns the
gcd −1, which the equality test against literal 1 rejects. -/
theorem mod_inverse_negative_counterexample :
    mod_inverse (-1) 3 = none ∧ Int.gcd (-1) 3 = 1 := by
  constructor
  · unfold mod_inverse
    rw [egcd_eval_neg1_3]
    decide
  · decide

/-- C5 (amended): for nonnegative v and positive modulus m, `mod_inverse`
returns some r with r in [0, m) and v·r ≡ 1 (mod m) exactly when
gcd(v, m) = 1, and fails with `none` exactly when gcd(v, m) ≠ 1. -/
theorem mod_inverse_correct_nonneg (v m : Int) (hv : 0 ≤ v) (hm : 0 < m) :
    (Int.gcd v m = 1 →
      ∃ r, mod_inverse v m = some r ∧ 0 ≤ r ∧ r < m ∧ v * r ≡ 1 [ZMOD m]) ∧
    (Int.gcd v m ≠ 1 → mod_inverse v m = none) := by
  constructor
  · intro hg
    obtain ⟨r, hr⟩ := mod_inverse_isSome hv hm hg
    obtain ⟨h1, h2⟩ := mod_inverse_range hm hr
    exact ⟨r, hr, h1, h2, mod_inverse_sound hr⟩
  · intro hg
    exact (mod_inverse_none_iff hv hm).mpr hg

/-- Witness for the amended C5 at the concrete case of the specification,
`ModularInverse(3, 11) = 4`. -/
theorem mod_inverse_correct_nonneg_witness :
    (Int.gcd 3 11 = 1 →
      ∃ r, mod_inverse 3 11 = some r ∧ 0 ≤ r ∧ r < 11 ∧ 3 * r ≡ 1 [ZMOD 11]) ∧
    (Int.gcd 3 11 ≠ 1 → mod_inverse 3 11 = none) :=
  mod_inverse_correct_nonneg 3 11 (by norm_num) (by norm_num)

/-! ### Claim C6 -/

/-- C6: for all integers a and b not both zero, `extended_gcd a b` returns
(g, x, y) with a·x + b·y = g, g dividing both a and b, and g equal to
gcd(|a|, |b|) up to sign. -/
theorem extended_gcd_bezout_and_gcd (a b : Int) (h : ¬(a = 0 ∧ b = 0)) :
    a * (extended_gcd a b).2.1 + b * (extended_gcd a b).2.2 = (extended_gcd a b).1 ∧
    (extended_gcd a b).1 ∣ a ∧ (extended_gcd a b).1 ∣ b ∧
    ((extended_gcd a b).1).natAbs = Int.gcd a b :=
  ⟨egcd_bezout a b, (egcd_dvd a b).1, (egcd_dvd a b).2, egcd_natAbs a b⟩

/-- Witness for C6 at the concrete case of the specification,
`ExtendedEuclid(240, 46) = (2, −9, 47)`. -/
theorem extended_gcd_bezout_and_gcd_witness :
    240 * (extended_gcd 240 46).2.1 + 46 * (extended_gcd 240 46).2.2 =
      (extended_gcd 240 46).1 ∧
    (extended_gcd 240 46).1 ∣ 240 ∧ (extended_gcd 240 46).1 ∣ 46 ∧
    ((extended_gcd 240 46).1).natAbs = Int.gcd 240 46 :=
  extended_gcd_bezout_and_gcd 240 46 (by norm_num)

/-! ### Claim C9 -/

/-- C9: the recursion of `extended_gcd` is well-founded with the absolute
value of the second argument as the strictly decreasing measure: running the
identical recursion with fuel |b| + 1 always terminates with the answer,
never exhausting the fuel. -/
theorem extended_gcd_recursion_depth_bound (a b : Int) :
    egcdF (b.natAbs + 1) a b = some (extended_gcd a b) :=
  egcdF_complete (b.natAbs + 1) a b (Nat.lt_succ_self _)

/-! ### Claim C10 -/

/-- C10: every successful call of `transform_to_montgomery` with a positive
modulus returns all four integers in the canonical range [0, p). -/
theorem transform_outputs_in_range (x y a b p z0 u v A B : Int) (hp : 0 < p)
    (h : transform_to_montgomery x y a b p z0 = some (u, v, A, B)) :
    (0 ≤ u ∧ u < p) ∧ (0 ≤ v ∧ v < p) ∧ (0 ≤ A ∧ A < p) ∧ (0 ≤ B ∧ B < p) := by
  obtain ⟨s, si, hs, hsi, hu, hv, hA, hB⟩ := transform_eq h
  have hne := ne_of_gt hp
  subst hu hv hA hB
  exact ⟨⟨Int.emod_nonneg _ hne, Int.emod_lt_of_pos _ hp⟩,
    ⟨Int.emod_nonneg _ hne, Int.emod_lt_of_pos _ hp⟩,
    ⟨Int.emod_nonneg _ hne, Int.emod_lt_of_pos _ hp⟩,
    ⟨Int.emod_nonneg _ hne, Int.emod_lt_of_pos _ hp⟩⟩

/-- Witness for C10 at the example of the program. -/
theorem transform_outputs_in_range_witness :
    ((0 : Int) ≤ 5 ∧ (5 : Int) < 17) ∧ ((0 : Int) ≤ 5 ∧ (5 : Int) < 17) ∧
    ((0 : Int) ≤ 3 ∧ (3 : Int) < 17) ∧ ((0 : Int) ≤ 15 ∧ (15 : Int) < 17) :=
  transform_outputs_in_range 14 6 8 2 17 8 5 5 3 15 (by norm_num) transform_eval_17

/-! ### Euler criterion bridges -/

theorem eulerExp_eq {P : Nat} (hP : 1 ≤ P) :
    ((((P : Int)) - 1).tdiv 2).toNat = (P - 1) / 2 := by
  rw [Int.tdiv_eq_ediv (by omega) (by norm_num)]
  omega

theorem card_div_two_eq {P : Nat} (hP : Nat.Prime P) (hodd : 2 < P) :
    (P - 1) / 2 = P / 2 := by
  rcases hP.eq_two_or_odd with h | h
  · omega
  · omega

theorem pow_half_of_isSquare {P : Nat} (hP : Nat.Prime P) (hodd : 2 < P)
    {a : ZMod P} (ha : a ≠ 0) (hsq : IsSquare a) : a ^ ((P - 1) / 2) = 1 := by
  haveI : Fact P.Prime := ⟨hP⟩
  rw [card_div_two_eq hP hodd]
  exact (ZMod.euler_criterion P ha).mp hsq

theorem pow_half_of_nonsquare {P : Nat} (hP : Nat.Prime P) (hodd : 2 < P)
    {a : ZMod P} (ha : a ≠ 0) (hnsq : ¬IsSquare a) : a ^ ((P - 1) / 2) = -1 := by
  haveI : Fact P.Prime := ⟨hP⟩
  rcases ZMod.pow_div_two_eq_neg_one_or_one P ha with h | h
  · exact absurd ((ZMod.euler_criterion P ha).mpr h) hnsq
  · rw [card_div_two_eq hP hodd]
    exact h

theorem exists_nonresidue_int (P : Nat) (hP : Nat.Prime P) (hodd : 2 < P) :
    ∃ n : Int, 2 ≤ n ∧ n < (P : Int) ∧ (n : ZMod P) ^ ((P - 1) / 2) = -1 := by
  haveI : Fact P.Prime := ⟨hP⟩
  haveI : NeZero P := ⟨by omega⟩
  obtain ⟨b, hb⟩ := FiniteField.exists_nonsquare
    (F := ZMod P) (by rw [ZMod.ringChar_zmod_n]; omega)
  have hb0 : b ≠ 0 := fun h => hb (h ▸ ⟨0, by simp⟩)
  have hb1 : b ≠ 1 := fun h => hb (h ▸ ⟨1, by simp⟩)
  have hval : (b.val : ZMod P) = b := ZMod.natCast_rightInverse b
  have hv0 : b.val ≠ 0 := fun h => hb0 (by rw [← hval, h]; simp)
  have hv1 : b.val ≠ 1 := fun h => hb1 (by rw [← hval, h]; simp)
  have hvP : b.val < P := ZMod.val_lt b
  refine ⟨(b.val : Int), by omega, by exact_mod_cast hvP, ?_⟩
  have hcast : (((b.val : Int)) : ZMod P) = b := by
    push_cast
    exact hval
  rw [hcast]
  exact pow_half_of_nonsquare hP hodd hb0 hb

theorem modpow_eq_one_iff {P : Nat} (hP1 : 1 < P) (v : Int) (e : Nat) :
    modpow v e (P : Int) = 1 ↔ (v : ZMod P) ^ e = 1 := by
  have hp0 : (0 : Int) < (P : Int) := by exact_mod_cast Nat.lt_of_lt_of_le Nat.zero_lt_one (le_of_lt hP1)
  constructor
  · intro h
    have := congrArg (fun w : Int => (w : ZMod P)) h
    simp only [modpow_cast] at this
    simpa using this
  · intro h
    refine (intCast_inj_of_range (modpow_nonneg v e hp0) (modpow_lt v e hp0)
      (by norm_num) (by exact_mod_cast hP1)).mp ?_
    rw [modpow_cast]
    simpa using h

theorem modpow_eq_sub_one_iff {P : Nat} (hP1 : 1 < P) (v : Int) (e : Nat) :
    modpow v e (P : Int) = (P : Int) - 1 ↔ (v : ZMod P) ^ e = -1 := by
  have hp0 : (0 : Int) < (P : Int) := by omega
  have hcast : (((P : Int) - 1 : Int) : ZMod P) = -1 := by
    push_cast
    simp
  constructor
  · intro h
    have := congrArg (fun w : Int => (w : ZMod P)) h
    simp only [modpow_cast] at this
    rw [this]
    exact hcast
  · intro h
    refine (intCast_inj_of_range (modpow_nonneg v e hp0) (modpow_lt v e hp0)
      (by omega) (by omega)).mp ?_
    rw [modpow_cast, hcast]
    exact h

/-! ### The non-residue search succeeds for odd primes -/

theorem findNonresidue_succeeds (p : Int) :
    ∀ (fuel : Nat) (start : Int),
    (∃ n : Int, start ≤ n ∧ n < start + fuel ∧
      modpow n (((p - 1).tdiv 2).toNat) p = p - 1) →
    ∃ z, findNonresidue p fuel start = some z ∧
      modpow z (((p - 1).tdiv 2).toNat) p = p - 1 := by
  intro fuel
  induction fuel with
  | zero =>
    intro start ⟨n, h1, h2, _⟩
    omega
  | succ f ih =>
    intro start ⟨n, h1, h2, h3⟩
    rw [findNonresidue]
    by_cases hs : modpow start (((p - 1).tdiv 2).toNat) p = p - 1
    · exact ⟨start, by rw [if_pos hs], hs⟩
    · rw [if_neg hs]
      refine ih (start + 1) ⟨n, ?_, by omega, h3⟩
      rcases eq_or_lt_of_le h1 with h | h
      · exact absurd (h ▸ h3) hs
      · omega

/-! ### Correctness of the inner Tonelli-Shanks loop -/

theorem tsInner_run {P : Nat} (hP1 : 1 < P) (m i0 : Nat) (t : Int)
    (hi0 : (t : ZMod P) ^ 2 ^ i0 = 1)
    (hmin : ∀ j < i0, (t : ZMod P) ^ 2 ^ j ≠ 1) (him : i0 < m) :
    ∀ (fuel j : Nat) (t2i : Int), j ≤ i0 → i0 - j < fuel →
    0 ≤ t2i → t2i < (P : Int) → (t2i : ZMod P) = (t : ZMod P) ^ 2 ^ j →
    tsInner (P : Int) m fuel t2i j = some i0 := by
  intro fuel
  induction fuel with
  | zero => omega
  | succ f ih =>
    intro j t2i hj hfuel h0 hP hcast
    rw [tsInner]
    by_cases h1 : t2i = 1
    · rw [if_pos h1]
      rcases eq_or_lt_of_le hj with he | hl
      · rw [he]
      · exfalso
        refine hmin j hl ?_
        rw [← hcast, h1]
        simp
    · rw [if_neg h1]
      have hne : (t : ZMod P) ^ 2 ^ j ≠ 1 := by
        intro h
        refine h1 ?_
        refine (intCast_inj_of_range h0 hP (by norm_num) (by exact_mod_cast hP1)).mp ?_
        rw [hcast, h]
        simp
      have hjlt : j < i0 := by
        rcases eq_or_lt_of_le hj with he | hl
        · exact absurd (he ▸ hi0) hne
        · exact hl
      have hguard : j + 1 ≠ m := by omega
      rw [if_neg hguard]
      refine ih (j + 1) (modpow t2i 2 (P : Int)) (by omega) (by omega)
        (modpow_nonneg _ _ (by omega)) (modpow_lt _ _ (by omega)) ?_
      rw [modpow_cast, hcast, ← pow_mul, ← pow_succ]

theorem tsInner_finds {P : Nat} (hP1 : 1 < P) (m : Nat) (t : Int)
    (ht0 : 0 ≤ t) (htP : t < (P : Int)) (htne : t ≠ 1) (hm : 1 ≤ m)
    (hpow : (t : ZMod P) ^ 2 ^ (m - 1) = 1) :
    ∃ i, tsInner (P : Int) m (m + 1) t 0 = some i ∧ 1 ≤ i ∧ i < m ∧
      (t : ZMod P) ^ 2 ^ i = 1 ∧ ∀ j < i, (t : ZMod P) ^ 2 ^ j ≠ 1 := by
  have hex : ∃ k, (t : ZMod P) ^ 2 ^ k = 1 := ⟨m - 1, hpow⟩
  classical
  have hi0 := Nat.find_spec hex
  have hmin : ∀ j < Nat.find hex, (t : ZMod P) ^ 2 ^ j ≠ 1 := fun j hj =>
    Nat.find_min hex hj
  have hne1 : (t : ZMod P) ^ 2 ^ 0 ≠ 1 := by
    simp only [pow_zero, pow_one]
    intro h
    exact htne ((intCast_inj_of_range ht0 htP (by norm_num)
      (by exact_mod_cast hP1)).mp (by rw [h]; simp))
  have hge : 1 ≤ Nat.find hex := by
    by_contra h
    push_neg at h
    interval_cases h2 : Nat.find hex
    · exact hne1 (h2 ▸ hi0)
  have hle : Nat.find hex ≤ m - 1 := Nat.find_min' hex hpow
  have hlt : Nat.find hex < m := by omega
  refine ⟨Nat.find hex, ?_, hge, hlt, hi0, hmin⟩
  refine tsInner_run hP1 m (Nat.find hex) t hi0 hmin hlt (m + 1) 0 t
    (by omega) (by omega) ht0 htP ?_
  simp

/-! ### Completeness of the Tonelli-Shanks main loop -/

theorem tsLoop_complete (P : Nat) (hP : Nat.Prime P) (hodd : 2 < P) (w : Int) :
    ∀ (fuel m : Nat) (c t r : Int), m < fuel → 1 ≤ m → m ≤ 33 →
    0 ≤ c → c < (P : Int) → 0 ≤ t → t < (P : Int) → 0 ≤ r → r < (P : Int) →
    (r : ZMod P) ^ 2 = (t : ZMod P) * (w : ZMod P) →
    (t : ZMod P) ^ 2 ^ (m - 1) = 1 →
    (c : ZMod P) ^ 2 ^ (m - 1) = -1 →
    ∃ res, tsLoop (P : Int) fuel m c t r = some res := by
  haveI : Fact P.Prime := ⟨hP⟩
  intro fuel
  induction fuel with
  | zero => omega
  | succ f ih =>
    intro m c t r hmf hm hm33 hc0 hcP ht0 htP hr0 hrP hI1 hI2 hI3
    by_cases ht1 : t = 1
    · exact ⟨r, by rw [tsLoop, if_pos ht1]⟩
    · obtain ⟨i, hti, hi1, him, hipow, himin⟩ :=
        tsInner_finds (by omega) m t ht0 htP ht1 hm hI2
      set b := modpow c (2 ^ ((m - i - 1) % 32)) (P : Int) with hbdef
      set c2 := modpow b 2 (P : Int) with hc2def
      set t2 := (t * c2).tmod (P : Int) with ht2def
      set r2 := (r * b).tmod (P : Int) with hr2def
      have hp0 : (0 : Int) < (P : Int) := by omega
      have hmask : (m - i - 1) % 32 = m - i - 1 := by omega
      have hbZ : ((b : Int) : ZMod P) = (c : ZMod P) ^ 2 ^ (m - i - 1) := by
        rw [hbdef, modpow_cast, hmask]
      have hc2Z : ((c2 : Int) : ZMod P) = ((b : Int) : ZMod P) ^ 2 :=
        modpow_cast b 2 P
      have hc2Z2 : ((c2 : Int) : ZMod P) = (c : ZMod P) ^ 2 ^ (m - i) := by
        have he : m - i - 1 + 1 = m - i := by omega
        rw [hc2Z, hbZ, ← pow_mul, ← pow_succ, he]
      have ht2Z : ((t2 : Int) : ZMod P) = (t : ZMod P) * ((c2 : Int) : ZMod P) := by
        rw [ht2def, intCast_tmod_self]
        push_cast
        ring
      have hr2Z : ((r2 : Int) : ZMod P) = (r : ZMod P) * ((b : Int) : ZMod P) := by
        rw [hr2def, intCast_tmod_self]
        push_cast
        ring
      have hcpow : ((c2 : Int) : ZMod P) ^ 2 ^ (i - 1) = -1 := by
        have he : (m - i) + (i - 1) = m - 1 := by omega
        rw [hc2Z2, ← pow_mul, ← pow_add, he, hI3]
      have htneg : (t : ZMod P) ^ 2 ^ (i - 1) = -1 := by
        have hii : i - 1 + 1 = i := by omega
        have hsq : ((t : ZMod P) ^ 2 ^ (i - 1)) * ((t : ZMod P) ^ 2 ^ (i - 1)) = 1 := by
          rw [← pow_add]
          have he : 2 ^ (i - 1) + 2 ^ (i - 1) = 2 ^ i := by
            calc 2 ^ (i - 1) + 2 ^ (i - 1) = 2 ^ (i - 1) * 2 := by ring
              _ = 2 ^ (i - 1 + 1) := (pow_succ 2 (i - 1)).symm
              _ = 2 ^ i := by rw [hii]
          rw [he, hipow]
        rcases mul_self_eq_one_iff.mp hsq with h | h
        · exact absurd h (himin (i - 1) (by omega))
        · exact h
      have hI2a : ((t2 : Int) : ZMod P) ^ 2 ^ (i - 1) = 1 := by
        rw [ht2Z, mul_pow, htneg, hcpow]
        ring
      have hI1a : ((r2 : Int) : ZMod P) ^ 2 = ((t2 : Int) : ZMod P) * (w : ZMod P) := by
        rw [hr2Z, ht2Z, hc2Z, mul_pow, hI1]
        ring
      have h1 : 0 ≤ c2 := modpow_nonneg _ _ hp0
      have h2 : c2 < (P : Int) := modpow_lt _ _ hp0
      have h3 : 0 ≤ t2 := Int.tmod_nonneg _ (mul_nonneg ht0 h1)
      have h4 : t2 < (P : Int) := Int.tmod_lt_of_pos _ hp0
      have h5 : 0 ≤ r2 := Int.tmod_nonneg _ (mul_nonneg hr0 (modpow_nonneg _ _ hp0))
      have h6 : r2 < (P : Int) := Int.tmod_lt_of_pos _ hp0
      obtain ⟨res, hres⟩ := ih i c2 t2 r2 (by omega) hi1 (by omega) h1 h2 h3 h4 h5 h6 hI1a hI2a hcpow
      refine ⟨res, ?_⟩
      rw [tsLoop, if_neg ht1, hti]
      dsimp only
      simp only [tsStep]
      exact hres

/-! ### Completeness of mod_sqrt for odd primes -/

theorem mod_sqrt_isSome (P : Nat) (hP : Nat.Prime P) (hodd : 2 < P)
    (h34 : ¬(2 ^ 34 ∣ P - 1)) (v : Int)
    (hE : (v : ZMod P) ^ ((P - 1) / 2) = 1) :
    ∃ r, mod_sqrt v (P : Int) = some r := by
  haveI : Fact P.Prime := ⟨hP⟩
  by_cases hv0 : v = 0
  · exact ⟨0, by rw [mod_sqrt, if_pos hv0]⟩
  have hP2 : ¬((P : Int) = 2) := by omega
  have hEulerCode : modpow v ((((P : Int)) - 1).tdiv 2).toNat (P : Int) = 1 := by
    rw [eulerExp_eq (by omega)]
    exact (modpow_eq_one_iff (by omega) v _).mpr hE
  -- factorization of P - 1
  have hn1 : 1 ≤ (((P : Int)) - 1).toNat := by omega
  obtain ⟨hfac, hqodd⟩ :=
    factorTwo_spec (((P : Int)) - 1).toNat (((P : Int)) - 1).toNat hn1 le_rfl
  set q := (factorTwo (((P : Int)) - 1).toNat (((P : Int)) - 1).toNat).1 with hqdef
  set s := (factorTwo (((P : Int)) - 1).toNat (((P : Int)) - 1).toNat).2 with hsdef
  have hPodd : P % 2 = 1 := by
    rcases hP.eq_two_or_odd with h | h
    · omega
    · exact h
  have htn : (((P : Int)) - 1).toNat = P - 1 := by omega
  have hs1 : 1 ≤ s := by
    by_contra hs0
    push_neg at hs0
    interval_cases s
    · rw [htn] at hfac
      simp at hfac
      omega
  have hs33 : s ≤ 33 := by
    by_contra hs34
    push_neg at hs34
    refine h34 ⟨q * 2 ^ (s - 34), ?_⟩
    rw [htn] at hfac
    have hsplit : (2 : Nat) ^ s = 2 ^ (s - 34) * 2 ^ 34 := by
      rw [← pow_add]
      congr 1
      omega
    rw [hfac, hsplit]
    ring
  have hhalf : (P - 1) / 2 = q * 2 ^ (s - 1) := by
    have h2 : 2 ^ s = 2 ^ (s - 1) * 2 := by
      rw [← pow_succ]
      congr 1
      omega
    rw [htn, h2] at hfac
    set Q := q * 2 ^ (s - 1) with hQdef
    have : P - 1 = Q * 2 := by rw [hfac]; ring
    omega
  -- the quadratic non-residue
  obtain ⟨n, hn2, hnP, hnpow⟩ := exists_nonresidue_int P hP hodd
  have hntest : modpow n ((((P : Int)) - 1).tdiv 2).toNat (P : Int) = (P : Int) - 1 := by
    rw [eulerExp_eq (by omega)]
    exact (modpow_eq_sub_one_iff (by omega) n _).mpr hnpow
  have htoP : ((P : Int)).toNat = P := by omega
  obtain ⟨z, hzfind, hztest⟩ := findNonresidue_succeeds (P : Int) ((P : Int)).toNat 2
    ⟨n, hn2, by omega, hntest⟩
  have hzpow : (z : ZMod P) ^ ((P - 1) / 2) = -1 := by
    rw [eulerExp_eq (by omega)] at hztest
    exact (modpow_eq_sub_one_iff (by omega) z _).mp hztest
  -- initial state and its invariants
  have hp0 : (0 : Int) < (P : Int) := by omega
  have hI1 : ((modpow v ((q + 1) / 2) (P : Int) : Int) : ZMod P) ^ 2 =
      ((modpow v q (P : Int) : Int) : ZMod P) * (v : ZMod P) := by
    rw [modpow_cast, modpow_cast, ← pow_mul]
    have he : (q + 1) / 2 * 2 = q + 1 := by omega
    rw [he, pow_succ]
  have hI2 : ((modpow v q (P : Int) : Int) : ZMod P) ^ 2 ^ (s - 1) = 1 := by
    rw [modpow_cast, ← pow_mul, ← hhalf]
    exact hE
  have hI3 : ((modpow z q (P : Int) : Int) : ZMod P) ^ 2 ^ (s - 1) = -1 := by
    rw [modpow_cast, ← pow_mul, ← hhalf]
    exact hzpow
  obtain ⟨res, hres⟩ := tsLoop_complete P hP hodd v (s + 1) s
    (modpow z q (P : Int)) (modpow v q (P : Int)) (modpow v ((q + 1) / 2) (P : Int))
    (by omega) hs1 hs33
    (modpow_nonneg _ _ hp0) (modpow_lt _ _ hp0)
    (modpow_nonneg _ _ hp0) (modpow_lt _ _ hp0)
    (modpow_nonneg _ _ hp0) (modpow_lt _ _ hp0)
    hI1 hI2 hI3
  refine ⟨res, ?_⟩
  rw [mod_sqrt, if_neg hv0, if_neg hP2, if_neg (not_not_intro hEulerCode)]
  dsimp only
  rw [hzfind]
  exact hres

theorem mod_sqrt_nonresidue_none (P : Nat) (hP : Nat.Prime P) (hodd : 2 < P)
    (v : Int) (h : ¬IsSquare (v : ZMod P)) : mod_sqrt v (P : Int) = none := by
  haveI : Fact P.Prime := ⟨hP⟩
  haveI : Fact (2 < P) := ⟨hodd⟩
  have hvZ : (v : ZMod P) ≠ 0 := fun h0 => h (h0 ▸ ⟨0, by simp⟩)
  have hv0 : v ≠ 0 := fun h0 => hvZ (by rw [h0]; simp)
  have hP2 : ¬((P : Int) = 2) := by omega
  have hpow : (v : ZMod P) ^ ((P - 1) / 2) = -1 :=
    pow_half_of_nonsquare hP hodd hvZ h
  have hguard : modpow v ((((P : Int)) - 1).tdiv 2).toNat (P : Int) ≠ 1 := by
    rw [eulerExp_eq (by omega)]
    intro hone
    have h1 := (modpow_eq_one_iff (by omega) v ((P - 1) / 2)).mp hone
    rw [hpow] at h1
    exact ZMod.neg_one_ne_one h1
  rw [mod_sqrt, if_neg hv0, if_neg hP2, if_pos hguard]

/-! ### Claim C3 -/

/-- C3 counterexample: by the specification's definition a quadratic residue
mod p is any v such that r² ≡ v (mod p) is solvable; v = 7 is such a residue
mod the odd prime 7 (r = 0 works), yet `mod_sqrt 7 7` returns `none` because
Euler's criterion computes 7³ mod 7 = 0 ≠ 1. -/
theorem mod_sqrt_zero_residue_counterexample :
    mod_sqrt 7 7 = none ∧ (0 : Int) ^ 2 ≡ 7 [ZMOD 7] ∧ Nat.Prime 7 :=
  ⟨rfl, by decide, by norm_num⟩

/-- C3 (amended): for every odd prime p whose multiplicative 2-adic part
stays below the 32-bit shift width of the source (2^34 does not divide
p − 1) and every integer v not divisible by p, if v is a quadratic residue
mod p then `mod_sqrt` returns some r with r² ≡ v (mod p); for every odd
prime p, if v is a quadratic non-residue mod p the function returns `none`. -/
theorem mod_sqrt_residue_characterization (P : Nat) (hP : Nat.Prime P)
    (hodd : 2 < P) (v : Int) :
    (¬((P : Int) ∣ v) → ¬(2 ^ 34 ∣ P - 1) → IsSquare (v : ZMod P) →
      ∃ r, mod_sqrt v (P : Int) = some r ∧ r ^ 2 ≡ v [ZMOD (P : Int)]) ∧
    (¬IsSquare (v : ZMod P) → mod_sqrt v (P : Int) = none) := by
  constructor
  · intro hdvd h34 hsq
    have hvZ : (v : ZMod P) ≠ 0 := by
      rw [Ne, ZMod.intCast_zmod_eq_zero_iff_dvd]
      exact hdvd
    have hE : (v : ZMod P) ^ ((P - 1) / 2) = 1 :=
      pow_half_of_isSquare hP hodd hvZ hsq
    obtain ⟨r, hr⟩ := mod_sqrt_isSome P hP hodd h34 v hE
    exact ⟨r, hr, mod_sqrt_sound (by omega) hr⟩
  · exact mod_sqrt_nonresidue_none P hP hodd v

/-- Witness for the amended C3: over p = 7, the residue 4 gets a root and the
non-residue 3 is rejected (the two concrete cases of the specification). -/
theorem mod_sqrt_residue_characterization_witness :
    (∃ r, mod_sqrt 4 ((7 : Nat) : Int) = some r ∧
      r ^ 2 ≡ 4 [ZMOD ((7 : Nat) : Int)]) ∧
    mod_sqrt 3 ((7 : Nat) : Int) = none :=
  ⟨(mod_sqrt_residue_characterization 7 (by norm_num) (by norm_num) 4).1
      (by decide) (by norm_num) ⟨2, by decide⟩,
    (mod_sqrt_residue_characterization 7 (by norm_num) (by norm_num) 3).2
      (by decide)⟩


/-! ### Binary modular exponentiation is correct -/

theorem powModF_eq : ∀ (fuel b e n : Nat), e < 2 ^ fuel →
    powModF fuel b e n = b ^ e % n := by
  intro fuel
  induction fuel with
  | zero =>
    intro b e n h
    have he : e = 0 := by omega
    subst he
    simp [powModF]
  | succ f ih =>
    intro b e n h
    rw [powModF]
    by_cases he : e = 0
    · simp [he]
    · rw [if_neg he]
      have hlt : e / 2 < 2 ^ f := by
        rw [pow_succ] at h
        omega
      rw [ih (b * b % n) (e / 2) n hlt]
      have h1 : (b * b % n) ^ (e / 2) % n = (b * b) ^ (e / 2) % n :=
        (Nat.pow_mod (b * b) (e / 2) n).symm
      by_cases hodd : e % 2 = 1
      · rw [if_pos hodd, h1, Nat.mod_mul_mod]
        congr 1
        conv_rhs => rw [show e = 2 * (e / 2) + 1 from by omega]
        rw [pow_succ, pow_mul, pow_two]
      · rw [if_neg hodd, h1]
        congr 1
        conv_rhs => rw [show e = 2 * (e / 2) from by omega]
        rw [pow_mul, pow_two]

theorem pow_zmod_of_powModF {n : Nat} (b e fuel x : Nat) (hf : e < 2 ^ fuel)
    (hx : powModF fuel b e n = x) : ((b : ZMod n)) ^ e = ((x : Nat) : ZMod n) := by
  rw [← hx, powModF_eq fuel b e n hf]
  rw [ZMod.natCast_mod]
  push_cast
  rfl

/-! ### Primality of 1288490188801 = 75 * 2^34 + 1, the smallest prime whose
Tonelli-Shanks run reaches a 32-bit shift amount of 32 or more -/

theorem cast_big_sub_one :
    ((1288490188800 : Nat) : ZMod 1288490188801) = -1 := by
  haveI : NeZero (1288490188801 : Nat) := ⟨by norm_num⟩
  have h : (1288490188800 : Nat) = 1288490188801 - 1 := by norm_num
  rw [h, Nat.cast_sub (by norm_num), ZMod.natCast_self]
  simp

theorem bigP_prime : Nat.Prime 1288490188801 := by
  haveI : Fact (2 < (1288490188801 : Nat)) := ⟨by norm_num⟩
  haveI : NeZero (1288490188801 : Nat) := ⟨by norm_num⟩
  haveI : Fact (1 < (1288490188801 : Nat)) := ⟨by norm_num⟩
  have ha : ((11 : Nat) : ZMod 1288490188801) ^ 1288490188800 = 1 := by
    have h := pow_zmod_of_powModF (n := 1288490188801) 11 1288490188800 41 1
      (by norm_num) (by decide)
    simpa using h
  have hne : ∀ x : Nat, x < 1288490188801 → x ≠ 1 →
      ((x : Nat) : ZMod 1288490188801) ≠ 1 := by
    intro x hlt hx1 hc
    have hv : ((x : Nat) : ZMod 1288490188801).val = x := ZMod.val_cast_of_lt hlt
    rw [hc] at hv
    rw [ZMod.val_one] at hv
    exact hx1 hv.symm
  have h2 : ((11 : Nat) : ZMod 1288490188801) ^ 644245094400 ≠ 1 := by
    have h := pow_zmod_of_powModF (n := 1288490188801) 11 644245094400 41
      1288490188800 (by norm_num) (by decide)
    rw [h]
    exact hne 1288490188800 (by norm_num) (by norm_num)
  have h3 : ((11 : Nat) : ZMod 1288490188801) ^ 429496729600 ≠ 1 := by
    have h := pow_zmod_of_powModF (n := 1288490188801) 11 429496729600 41
      644246077440 (by norm_num) (by decide)
    rw [h]
    exact hne 644246077440 (by norm_num) (by norm_num)
  have h5 : ((11 : Nat) : ZMod 1288490188801) ^ 257698037760 ≠ 1 := by
    have h := pow_zmod_of_powModF (n := 1288490188801) 11 257698037760 41
      1087217539268 (by norm_num) (by decide)
    rw [h]
    exact hne 1087217539268 (by norm_num) (by norm_num)
  apply lucas_primality 1288490188801 ((11 : Nat) : ZMod 1288490188801)
  · rw [show (1288490188801 : Nat) - 1 = 1288490188800 from by norm_num]
    exact ha
  · intro q hq hdvd
    rw [show (1288490188801 : Nat) - 1 = 2 ^ 34 * 3 * 5 ^ 2 from by norm_num] at hdvd
    have hq235 : q = 2 ∨ q = 3 ∨ q = 5 := by
      rcases (Nat.Prime.dvd_mul hq).mp hdvd with h' | h'
      · rcases (Nat.Prime.dvd_mul hq).mp h' with h'' | h''
        · exact Or.inl ((Nat.prime_dvd_prime_iff_eq hq Nat.prime_two).mp
            (hq.dvd_of_dvd_pow h''))
        · exact Or.inr (Or.inl ((Nat.prime_dvd_prime_iff_eq hq
            Nat.prime_three).mp h''))
      · exact Or.inr (Or.inr ((Nat.prime_dvd_prime_iff_eq hq
          (by norm_num)).mp (hq.dvd_of_dvd_pow h')))
    rw [show (1288490188801 : Nat) - 1 = 1288490188800 from by norm_num]
    rcases hq235 with rfl | rfl | rfl
    · rw [show (1288490188800 : Nat) / 2 = 644245094400 from by norm_num]
      exact h2
    · rw [show (1288490188800 : Nat) / 3 = 429496729600 from by norm_num]
      exact h3
    · rw [show (1288490188800 : Nat) / 5 = 257698037760 from by norm_num]
      exact h5

/-! ### The odd-part factorization is unique, pinning the factorTwo output -/

theorem odd_part_unique : ∀ (s1 : Nat) {q1 q2 s2 : Nat}, q1 % 2 = 1 →
    q2 % 2 = 1 → q1 * 2 ^ s1 = q2 * 2 ^ s2 → q1 = q2 ∧ s1 = s2 := by
  intro s1
  induction s1 with
  | zero =>
    intro q1 q2 s2 h1 h2 heq
    cases s2 with
    | zero =>
      simp at heq
      exact ⟨heq, rfl⟩
    | succ s =>
      exfalso
      rw [pow_succ, ← mul_assoc] at heq
      simp at heq
      omega
  | succ s ih =>
    intro q1 q2 s2 h1 h2 heq
    cases s2 with
    | zero =>
      exfalso
      rw [pow_succ, ← mul_assoc] at heq
      simp at heq
      omega
    | succ s2' =>
      rw [pow_succ, pow_succ, ← mul_assoc, ← mul_assoc] at heq
      have heq' : q1 * 2 ^ s = q2 * 2 ^ s2' := by omega
      obtain ⟨hq, hs⟩ := ih h1 h2 heq'
      exact ⟨hq, by omega⟩

theorem factorTwo_big : factorTwo 1288490188800 1288490188800 = (75, 34) := by
  obtain ⟨hfac, hodd⟩ := factorTwo_spec 1288490188800 1288490188800
    (by norm_num) le_rfl
  have h75 : (1288490188800 : Nat) = 75 * 2 ^ 34 := by norm_num
  obtain ⟨hq, hs⟩ := odd_part_unique
    (factorTwo 1288490188800 1288490188800).2 hodd (by norm_num)
    (hfac.symm.trans h75)
  exact Prod.ext hq hs

/-- Outcome of the Tonelli-Shanks main loop once the state component m has
dropped to 1 while t differs from 1: the inner loop's counter check fires
immediately and the defensive failure branch returns. -/
theorem tsLoop_m_one_none (p c t r : Int) (fuel : Nat) (ht : t ≠ 1) :
    tsLoop p (fuel + 1) 1 c t r = none := by
  rw [tsLoop, if_neg ht]
  have h : tsInner p 1 (1 + 1) t 0 = none := by
    rw [tsInner, if_neg ht, if_pos rfl]
  rw [h]


/-- Unfolding of mod_sqrt past its guards once the Euler check has passed
and the non-residue search result is known. -/
theorem mod_sqrt_unfold (v p z : Int) (hv : v ≠ 0) (hp2 : p ≠ 2)
    (hE : modpow v (((p - 1).tdiv 2).toNat) p = 1)
    (hz : findNonresidue p p.toNat 2 = some z) :
    mod_sqrt v p = tsLoop p ((factorTwo (p - 1).toNat (p - 1).toNat).2 + 1)
      (factorTwo (p - 1).toNat (p - 1).toNat).2
      (modpow z (factorTwo (p - 1).toNat (p - 1).toNat).1 p)
      (modpow v (factorTwo (p - 1).toNat (p - 1).toNat).1 p)
      (modpow v (((factorTwo (p - 1).toNat (p - 1).toNat).1 + 1) / 2) p) := by
  rw [mod_sqrt, if_neg hv, if_neg hp2, if_neg (not_not_intro hE)]
  dsimp only
  rw [hz]

/-! ### Claim C8 -/

/-- C8 (code-bug evidence): at the odd prime p = 1288490188801 = 75·2³⁴ + 1
and the quadratic residue v = p − 1, the Euler-criterion check of the source
passes — the computed v^((p−1)/2) mod p equals 1 (second conjunct) — and yet
`mod_sqrt` fails (third conjunct): in the first main-loop iteration m = 34
and the least index is i = 1, so the source shifts 1u32 << 32; with overflow
checks off the shift amount wraps to 0, the multiplier b degenerates to c¹,
the invariant t^(2^(m−1)) ≡ 1 is destroyed, and the next inner loop exhausts
its counter at i = m, taking the defensive `return None`; with overflow
checks on the program panics at the shift instead. -/
theorem mod_sqrt_defensive_failure_at_shift_wrap :
    Nat.Prime 1288490188801 ∧
    modpow 1288490188800 ((((1288490188801 : Nat) : Int) - 1).tdiv 2).toNat
      ((1288490188801 : Nat) : Int) = 1 ∧
    mod_sqrt 1288490188800 ((1288490188801 : Nat) : Int) = none := by
  have hodd : 2 < (1288490188801 : Nat) := by norm_num
  haveI : Fact (Nat.Prime 1288490188801) := ⟨bigP_prime⟩
  haveI : Fact (2 < (1288490188801 : Nat)) := ⟨hodd⟩
  have hvZ : ((1288490188800 : Int) : ZMod 1288490188801) = -1 := by
    exact_mod_cast cast_big_sub_one
  have hPm1 : ((((1288490188801 : Nat) : Int) - 1 : Int) : ZMod 1288490188801) = -1 := by
    rw [show (((1288490188801 : Nat) : Int) - 1 : Int) =
      ((1288490188800 : Nat) : Int) from by norm_num]
    exact_mod_cast cast_big_sub_one
  have hEulerZ : ((1288490188800 : Int) : ZMod 1288490188801) ^
      ((1288490188801 - 1) / 2) = 1 := by
    rw [hvZ, show ((1288490188801 : Nat) - 1) / 2 = 644245094400 from by norm_num]
    exact Even.neg_one_pow (Nat.even_iff.mpr (by norm_num))
  have hEulerCode : modpow 1288490188800
      ((((1288490188801 : Nat) : Int) - 1).tdiv 2).toNat
      ((1288490188801 : Nat) : Int) = 1 := by
    rw [eulerExp_eq (by norm_num)]
    exact (modpow_eq_one_iff (by norm_num) _ _).mpr hEulerZ
  obtain ⟨n, hn2, hnP, hnpow⟩ := exists_nonresidue_int 1288490188801 bigP_prime hodd
  have hntest : modpow n ((((1288490188801 : Nat) : Int) - 1).tdiv 2).toNat
      ((1288490188801 : Nat) : Int) = ((1288490188801 : Nat) : Int) - 1 := by
    rw [eulerExp_eq (by norm_num)]
    exact (modpow_eq_sub_one_iff (by norm_num) _ _).mpr hnpow
  obtain ⟨z, hzfind, hztest⟩ := findNonresidue_succeeds ((1288490188801 : Nat) : Int)
    ((((1288490188801 : Nat) : Int)).toNat) 2 ⟨n, hn2, by omega, hntest⟩
  have hzZ : (z : ZMod 1288490188801) ^ ((1288490188801 - 1) / 2) = -1 := by
    rw [eulerExp_eq (by norm_num)] at hztest
    exact (modpow_eq_sub_one_iff (by norm_num) _ _).mp hztest
  have ht0 : modpow 1288490188800 75 ((1288490188801 : Nat) : Int) =
      ((1288490188801 : Nat) : Int) - 1 := by
    refine (modpow_eq_sub_one_iff (by norm_num) _ _).mpr ?_
    rw [hvZ]
    exact Odd.neg_one_pow (Nat.odd_iff.mpr (by norm_num))
  have ht1ne : (((1288490188801 : Nat) : Int) - 1) ≠ 1 := by omega
  have hsq1 : modpow (((1288490188801 : Nat) : Int) - 1) 2
      ((1288490188801 : Nat) : Int) = 1 := by
    refine (modpow_eq_one_iff (by norm_num) _ _).mpr ?_
    rw [hPm1]
    norm_num
  have hinner1 : tsInner ((1288490188801 : Nat) : Int) 34 (34 + 1)
      (((1288490188801 : Nat) : Int) - 1) 0 = some 1 := by
    rw [tsInner, if_neg ht1ne, if_neg (by norm_num : ¬(0 + 1 = 34)), hsq1]
    rw [show (34 : Nat) = 33 + 1 from rfl]
    rw [tsInner, if_pos rfl]
  refine ⟨bigP_prime, hEulerCode, ?_⟩
  rw [mod_sqrt_unfold 1288490188800 ((1288490188801 : Nat) : Int) z
    (by norm_num) (by omega) hEulerCode hzfind]
  rw [show ((((1288490188801 : Nat) : Int)) - 1).toNat = 1288490188800 from by omega]
  have hft1 : (factorTwo 1288490188800 1288490188800).1 = 75 := by
    rw [factorTwo_big]
  have hft2 : (factorTwo 1288490188800 1288490188800).2 = 34 := by
    rw [factorTwo_big]
  rw [hft1, hft2, ht0]
  rw [tsLoop, if_neg ht1ne, hinner1]
  dsimp only
  simp only [tsStep]
  refine tsLoop_m_one_none _ _ _ _ 33 ?_
  intro heq
  have hc := congrArg (fun w : Int => (w : ZMod 1288490188801)) heq
  simp only at hc
  rw [intCast_tmod_self] at hc
  rw [Int.cast_mul, Int.cast_one, hPm1] at hc
  simp only [modpow_cast] at hc
  rw [show ((2 : Nat) ^ ((34 - 1 - 1) % 32)) = 1 from by norm_num, pow_one,
    ← pow_mul] at hc
  norm_num at hc
  have h150 : (z : ZMod 1288490188801) ^ 150 = -1 := by linear_combination -hc
  have hone : (z : ZMod 1288490188801) ^ ((1288490188801 - 1) / 2) = 1 := by
    rw [show ((1288490188801 : Nat) - 1) / 2 = 150 * 2 ^ 32 from by norm_num]
    rw [pow_mul, h150]
    exact Even.neg_one_pow (Nat.even_iff.mpr (by norm_num))
  rw [hzZ] at hone
  exact ZMod.neg_one_ne_one hone

/-! ### Claim C7 -/

theorem two_ne_zero_bigP : (2 : ZMod 1288490188801) ≠ 0 := by decide

theorem two_pow_fifteen_ne_one_bigP :
    (2 : ZMod 1288490188801) ^ (15 : Nat) ≠ 1 := by decide

/-- C7 (code-bug evidence): in the first main-loop iteration at
p = 1288490188801 (m = 34, least index i = 1) the source computes the
multiplier exponent as `BigInt::from(1u32 << (34 − 1 − 1))`: the 32-bit
shift amount wraps to (34 − 1 − 1) % 32 = 0 with overflow checks off (and
panics with them on), so the computed multiplier is c^(2^0) mod p — the
first two conjuncts evaluate the embedded step — and this differs from the
exact-arithmetic value c^(2^32) mod p asserted by the claim (third
conjunct, at c = 2). -/
theorem tsStep_shift_wrap :
    (34 - 1 - 1) % 32 = 0 ∧
    (tsStep ((1288490188801 : Nat) : Int) 34 2 0 1 1).2.2.2 = 2 ∧
    modpow 2 (2 ^ 32) ((1288490188801 : Nat) : Int) ≠
      modpow 2 (2 ^ ((34 - 1 - 1) % 32)) ((1288490188801 : Nat) : Int) := by
  refine ⟨rfl, by decide, ?_⟩
  haveI : Fact (Nat.Prime 1288490188801) := ⟨bigP_prime⟩
  intro heq
  rw [show ((2 : Nat) ^ ((34 - 1 - 1) % 32)) = 1 from by norm_num] at heq
  have hr : modpow 2 1 ((1288490188801 : Nat) : Int) = 2 := by decide
  rw [hr] at heq
  have hcast := congrArg (fun w : Int => (w : ZMod 1288490188801)) heq
  simp only at hcast
  rw [modpow_cast] at hcast
  push_cast at hcast
  rw [show (4294967296 : Nat) = 4294967295 + 1 from by norm_num, pow_succ'] at hcast
  have hone : (2 : ZMod 1288490188801) ^ (4294967295 : Nat) = 1 := by
    refine mul_left_cancel₀ two_ne_zero_bigP ?_
    rw [mul_one]
    exact hcast
  have hPone : (2 : ZMod 1288490188801) ^ (1288490188800 : Nat) = 1 := by
    have h := ZMod.pow_card_sub_one_eq_one two_ne_zero_bigP
    rwa [show (1288490188801 : Nat) - 1 = 1288490188800 from by norm_num] at h
  have hg := pow_gcd_eq_one (2 : ZMod 1288490188801) hone hPone
  rw [show Nat.gcd 4294967295 1288490188800 = 15 from by decide] at hg
  exact absurd hg two_pow_fifteen_ne_one_bigP
